import Mathlib

/-!
Verification of the BotTelegram newsletter/summarization core.

This file gives a shallow embedding of the algorithmic parts of the
repository and proves (or refutes) the specification claims about them:

* `newsletter_service.py`: subscriber bookkeeping, tag matching, the daily
  scan cache (`get_daily_posts`), and the next-wake computation
  (`_find_next_active_hour`).
* `summarizer.py`: the batch partitioner, the bounded-concurrency
  dispatcher (modelled as a semaphore transition system), the per-channel
  ordering reassembler (`_buffer_and_send_ordered`), the error placeholder
  of `_summarize_batch`, and `split_summary_by_length`.

Python strings are modelled as `List Char`, dictionaries as association
lists, and Python sets as lists (only membership matters).
-/

/-! ## Association-list helpers (Python `dict` operations) -/

/-- Lookup a key in an association list (Python `d[k]` / `k in d`). -/
def lookupA {κ β : Type} [DecidableEq κ] (k : κ) : List (κ × β) → Option β
  | [] => none
  | (k2, v) :: rest => if k2 = k then some v else lookupA k rest

/-- Dictionary assignment `d[k] = v`: replaces the first binding of `k`,
or appends a new binding at the end (Python dicts keep insertion order). -/
def setA {κ β : Type} [DecidableEq κ] (k : κ) (v : β) : List (κ × β) → List (κ × β)
  | [] => [(k, v)]
  | (k2, w) :: rest => if k2 = k then (k, v) :: rest else (k2, w) :: setA k v rest

/-- Dictionary deletion `del d[k]`: removes the first binding of `k`. -/
def delA {κ β : Type} [DecidableEq κ] (k : κ) : List (κ × β) → List (κ × β)
  | [] => []
  | (k2, w) :: rest => if k2 = k then rest else (k2, w) :: delA k rest

/-! ## Newsletter service state (`newsletter_service.py`) -/

/-- The fixed list of target tags (`NewsletterService.target_tags`). -/
def target_tags : List (List Char) :=
  ["налоги".data,
   "внж".data,
   "наследники".data,
   "комплаенс".data,
   "израильские банки".data,
   "банки".data,
   "международные банки".data,
   "разблокировка".data,
   "активы".data,
   "капитал".data,
   "перевод капитала".data,
   "открытие счета".data,
   "инвестиции".data,
   "недвижимость".data,
   "благосостояние".data]

/-- Character-wise lowercasing as Python `str.lower()` acts on the ASCII
Latin and the Cyrillic ranges that occur in this repository. -/
def pyLowerChar (c : Char) : Char :=
  if 65 ≤ c.toNat ∧ c.toNat ≤ 90 then Char.ofNat (c.toNat + 32)
  else if 0x410 ≤ c.toNat ∧ c.toNat ≤ 0x42F then Char.ofNat (c.toNat + 32)
  else if c.toNat = 0x401 then Char.ofNat 0x451
  else c

/-- Python `str.lower()` on our character ranges. -/
def pyLower (l : List Char) : List Char := l.map pyLowerChar

/-- Does `needle` occur at the head of `hay`? -/
def beginsWith : List Char → List Char → Bool
  | [], _ => true
  | _ :: _, [] => false
  | a :: as, b :: bs => a == b && beginsWith as bs

/-- Python substring test `needle in hay`. -/
def occursIn (needle : List Char) : List Char → Bool
  | [] => beginsWith needle []
  | b :: bs => beginsWith needle (b :: bs) || occursIn needle bs

/-- `NewsletterService.has_target_tags`: `None` on empty text, otherwise the
first tag of `target_tags` (in list order) contained in the lowercased text. -/
def has_target_tags (text : List Char) : Option (List Char) :=
  if text = [] then none
  else target_tags.find? (fun tag => occursIn tag (pyLower text))

/-- Subscriber-related state of `NewsletterService`: the subscribed-user set,
the per-user delivery hour dictionary, and the persisted subscriber file
(modelled as the list of records `save_subscribers` would write). -/
structure NewsState where
  subscribed_users : List Nat
  subscriber_times : List (Nat × Nat)
  saved_file : List (Nat × Nat)
deriving DecidableEq

/-- `NewsletterService.get_user_newsletter_time`: stored hour, default 12. -/
def get_user_newsletter_time (s : NewsState) (user_id : Nat) : Nat :=
  (lookupA user_id s.subscriber_times).getD 12

/-- `NewsletterService.save_subscribers`: persists one record per subscribed
user, with the stored hour (default 12). -/
def save_subscribers (s : NewsState) : NewsState :=
  { s with saved_file :=
      s.subscribed_users.map (fun u => (u, (lookupA u s.subscriber_times).getD 12)) }

/-- `NewsletterService.set_user_newsletter_time`: updates and persists the
hour when the user is subscribed and `9 ≤ hour ≤ 20`; returns the Python
return value together with the new state. -/
def set_user_newsletter_time (s : NewsState) (user_id hour : Nat) : Bool × NewsState :=
  if user_id ∈ s.subscribed_users ∧ 9 ≤ hour ∧ hour ≤ 20 then
    (true, save_subscribers { s with subscriber_times := setA user_id hour s.subscriber_times })
  else
    (false, s)

/-- `NewsletterService.get_active_hours`: the delivery hours of current
subscribers, restricted to the range 9..20 (a Python set; modelled as the
list of its elements). -/
def get_active_hours (s : NewsState) : List Nat :=
  if s.subscribed_users = [] then []
  else
    (s.subscribed_users.map (fun u => get_user_newsletter_time s u)).filter
      (fun h => 9 ≤ h && h ≤ 20)

/-! ## Daily scan cache (`NewsletterService.get_daily_posts`) -/

/-- A matched post as built by `scan_channels_for_posts`. -/
structure FoundPost where
  channel_name : List Char
  tag : List Char
  text : List Char
deriving DecidableEq

/-- The cache-related state of `NewsletterService`. -/
structure DailyState where
  daily_posts_cache : List FoundPost
  last_scan_date : Option (List Char)
  sent_today : List Nat
deriving DecidableEq

/-- `NewsletterService.get_daily_posts`, with the current date and the result
of `scan_channels_for_posts` passed as parameters (the channel source is an
external collaborator).  Returns the posts, the new state, and whether the
channel-source scan was invoked.  The statement order of the source is kept:
`last_scan_date` is assigned `today` before the rollover test reads it. -/
def get_daily_posts (today : List Char) (scanResult : List FoundPost) (s : DailyState) :
    List FoundPost × DailyState × Bool :=
  if s.last_scan_date = some today ∧ s.daily_posts_cache ≠ [] then
    (s.daily_posts_cache, s, false)
  else
    let s1 : DailyState :=
      { s with daily_posts_cache := scanResult, last_scan_date := some today }
    let s2 : DailyState :=
      if s1.last_scan_date ≠ some today then { s1 with sent_today := [] } else s1
    (scanResult, s2, true)

/-! ## Next-wake computation (`NewsletterService._find_next_active_hour`) -/

/-- A naive Python `datetime`: calendar day, hour of day, and the remainder
within the hour (minutes, seconds and microseconds combined). -/
structure PyDateTime where
  day : Nat
  hour : Nat
  rest : Nat
deriving DecidableEq

/-- Strict lexicographic order on datetimes. -/
def dtLt (a b : PyDateTime) : Prop :=
  a.day < b.day ∨ (a.day = b.day ∧ (a.hour < b.hour ∨ (a.hour = b.hour ∧ a.rest < b.rest)))

/-- Non-strict order on datetimes. -/
def dtLe (a b : PyDateTime) : Prop := dtLt a b ∨ a = b

instance (a b : PyDateTime) : Decidable (dtLt a b) := by
  unfold dtLt; infer_instance

instance (a b : PyDateTime) : Decidable (dtLe a b) := by
  unfold dtLe; infer_instance

/-- Python `t.replace(hour := h, minute := 0, second := 0, microsecond := 0)`. -/
def replaceHourZero (t : PyDateTime) (h : Nat) : PyDateTime := ⟨t.day, h, 0⟩

/-- Python `t + timedelta(days := 1)`. -/
def addOneDay (t : PyDateTime) : PyDateTime := ⟨t.day + 1, t.hour, t.rest⟩

/-- `NewsletterService._find_next_active_hour`.  `none` models the
`ValueError` Python raises when `min` is applied to an empty sequence. -/
def find_next_active_hour (current_time : PyDateTime) (active_hours : List Nat) :
    Option PyDateTime :=
  match (active_hours.filter
      (fun h => current_time.hour < h && 9 ≤ h && h ≤ 20)).min? with
  | some m => some (replaceHourZero current_time m)
  | none =>
    if active_hours ≠ [] then
      match (active_hours.filter (fun h => 9 ≤ h && h ≤ 20)).min? with
      | some m => some (replaceHourZero (addOneDay current_time) m)
      | none => none
    else
      some (replaceHourZero (addOneDay current_time) 9)

/-- The delivery timestamps the spec speaks about: every active hour, today
and on the following day. -/
def activeTimestamps (now : PyDateTime) (active : List Nat) : List PyDateTime :=
  active.map (replaceHourZero now) ++ active.map (replaceHourZero (addOneDay now))

/-! ## Batch partitioner (`PostSummarizer.summarize_posts_in_batches`) -/

/-- A post as consumed by the summarizer (only the `channel` key matters to
the partitioner). -/
structure SPost where
  channel : List Char
  text : List Char
deriving DecidableEq

/-- One step of building the by-channel dictionary: append `p` to the list at
key `c`, creating the key if absent (`channels_posts[channel].append(post)`). -/
def dictAppend (acc : List (List Char × List SPost)) (c : List Char) (p : SPost) :
    List (List Char × List SPost) :=
  match acc with
  | [] => [(c, [p])]
  | (c2, l) :: rest =>
    if c2 = c then (c2, l ++ [p]) :: rest else (c2, l) :: dictAppend rest c p

/-- The grouping loop of `summarize_posts_in_batches`: posts grouped by
channel, in channel first-occurrence order, stable within a channel. -/
def channels_posts_of (posts : List SPost) : List (List Char × List SPost) :=
  posts.foldl (fun acc p => dictAppend acc p.channel p) []

/-- Python list slicing `[l[i:i + bs] for i in range(0, len(l), bs)]`
(meaningful for `bs ≥ 1`; Python raises on step 0). -/
def chunksOf {α : Type} (bs : Nat) : List α → List (List α)
  | [] => []
  | x :: xs => (x :: xs.take (bs - 1)) :: chunksOf bs (xs.drop (bs - 1))
termination_by l => l.length
decreasing_by
  simp only [List.length_cons]
  exact Nat.lt_succ_of_le (List.length_drop .. ▸ Nat.sub_le ..)

/-! ## Ordering reassembler (`PostSummarizer._buffer_and_send_ordered`) -/

/-- Per-channel assembly state: the buffer dictionary of completed batch
summaries, the next expected batch index, and the summaries forwarded to the
send callback so far (in forwarding order). -/
structure AsmState (α : Type) where
  buffer : List (Nat × α)
  nextIdx : Nat
  sent : List α
deriving DecidableEq

/-- The drain loop of `_buffer_and_send_ordered`: while the next expected
index is buffered and within the total, forward it, delete it from the
buffer and advance. -/
def drainBuffer {α : Type} (total : Nat) (s : AsmState α) : AsmState α :=
  if h : (lookupA s.nextIdx s.buffer).isSome ∧ s.nextIdx ≤ total then
    drainBuffer total
      ⟨delA s.nextIdx s.buffer, s.nextIdx + 1,
       s.sent ++ [(lookupA s.nextIdx s.buffer).get h.1]⟩
  else s
termination_by total + 1 - s.nextIdx
decreasing_by omega

/-- One completion event under the channel's lock: store the summary at its
batch index, then drain (`channel_buffers[channel][batch_idx] = summary`
followed by the while loop). -/
def completeBatch {α : Type} (total : Nat) (i : Nat) (summ : α) (s : AsmState α) :
    AsmState α :=
  drainBuffer total { s with buffer := setA i summ s.buffer }

/-- Run the reassembler for one channel with `total` batches whose summaries
are given by `f`, processing completion events in the order `order` (the
per-channel lock serializes the events, so an interleaving is a sequence). -/
def runBatches {α : Type} (total : Nat) (f : Nat → α) (order : List Nat) : AsmState α :=
  order.foldl (fun s i => completeBatch total i (f i) s) ⟨[], 1, []⟩

/-- Invariant of the reassembler after the set `P` of batch indices has been
processed: everything below `nextIdx` is processed, `nextIdx` is not, the
sent list is exactly batches `1 .. nextIdx - 1` in order, and the buffer
holds exactly the processed batches not yet sent. -/
def AsmInv {α : Type} (total : Nat) (f : Nat → α) (P : List Nat) (s : AsmState α) : Prop :=
  1 ≤ s.nextIdx
  ∧ (∀ j, 1 ≤ j → j < s.nextIdx → j ∈ P)
  ∧ s.nextIdx ∉ P
  ∧ s.sent = (List.range' 1 (s.nextIdx - 1)).map f
  ∧ (∀ j, lookupA j s.buffer = if j ∈ P ∧ s.nextIdx ≤ j then some (f j) else none)
  ∧ (s.buffer.map Prod.fst).Nodup
  ∧ (∀ j ∈ P, 1 ≤ j ∧ j ≤ total)

/-- The pre-drain version of `AsmInv`: the freshly stored index may be the
next expected one, so `nextIdx ∉ P` is not required yet. -/
def AsmPre {α : Type} (total : Nat) (f : Nat → α) (P : List Nat) (s : AsmState α) : Prop :=
  1 ≤ s.nextIdx
  ∧ (∀ j, 1 ≤ j → j < s.nextIdx → j ∈ P)
  ∧ s.sent = (List.range' 1 (s.nextIdx - 1)).map f
  ∧ (∀ j, lookupA j s.buffer = if j ∈ P ∧ s.nextIdx ≤ j then some (f j) else none)
  ∧ (s.buffer.map Prod.fst).Nodup
  ∧ (∀ j ∈ P, 1 ≤ j ∧ j ≤ total)

/-! ## Summarization worker failure handling (`PostSummarizer._summarize_batch`) -/

/-- The placeholder error string of `_summarize_batch`'s exception handler. -/
def batch_error_message (batch_number : Nat) (channel_name err_text : List Char) :
    List Char :=
  "❌ Ошибка при создании саммари батча ".data ++ (Nat.repr batch_number).data
    ++ " для канала @".data ++ channel_name ++ ": ".data ++ err_text

/-- `_summarize_batch` as a function of the summarization collaborator's
outcome: the summary on success, the placeholder string on failure. -/
def summarize_batch_result (outcome : Except (List Char) (List Char))
    (batch_number : Nat) (channel_name : List Char) : List Char :=
  match outcome with
  | Except.ok s => s
  | Except.error e => batch_error_message batch_number channel_name e

/-! ## Bounded dispatcher (`asyncio.Semaphore(MAX_CONCURRENT_REQUESTS)`) -/

/-- Status of one worker task: not yet through the semaphore, currently
holding it (executing its summarization body), or finished. -/
inductive TStatus
  | pending
  | holding
  | done
deriving DecidableEq

/-- Number of tasks currently holding the semaphore. -/
def countHolding : List TStatus → Nat
  | [] => 0
  | x :: xs => (if x = TStatus.holding then 1 else 0) + countHolding xs

/-- Dispatcher state: the semaphore's available count and all task statuses. -/
structure SemState where
  avail : Nat
  tasks : List TStatus
deriving DecidableEq

/-- Transitions of the dispatcher: a pending task acquires the semaphore when
its count is positive (`async with semaphore` entry), or a holding task
finishes and releases it (scope exit, on success or failure alike). -/
inductive SemStep : SemState → SemState → Prop
  | acquire (s : SemState) (i : Nat)
      (hi : s.tasks[i]? = some TStatus.pending) (hpos : 0 < s.avail) :
      SemStep s ⟨s.avail - 1, s.tasks.set i TStatus.holding⟩
  | release (s : SemState) (i : Nat)
      (hi : s.tasks[i]? = some TStatus.holding) :
      SemStep s ⟨s.avail + 1, s.tasks.set i TStatus.done⟩

/-- Initial dispatcher state: semaphore at `n`, all `m` batch tasks pending. -/
def initSemState (n m : Nat) : SemState := ⟨n, List.replicate m TStatus.pending⟩

/-! ## Chunked delivery (`PostSummarizer.split_summary_by_length`) -/

/-- Python whitespace stripped by `str.strip()` (ASCII part). -/
def pyIsSpace (c : Char) : Bool :=
  c == ' ' || c == '\t' || c == '\n' || c == '\r' || c == Char.ofNat 11 || c == Char.ofNat 12

/-- Python `str.strip()`. -/
def pyStrip (l : List Char) : List Char :=
  ((l.dropWhile pyIsSpace).reverse.dropWhile pyIsSpace).reverse

/-- Python `str.split(newline)`: empty pieces are preserved, the empty string
yields one empty piece. -/
def splitLines : List Char → List (List Char)
  | [] => [[]]
  | c :: cs =>
    if c = '\n' then [] :: splitLines cs
    else
      match splitLines cs with
      | l :: ls => (c :: l) :: ls
      | [] => [[c]]

/-- Join lines back with newlines (Python join semantics). -/
def joinLines : List (List Char) → List Char
  | [] => []
  | [l] => l
  | l :: l2 :: ls => l ++ '\n' :: joinLines (l2 :: ls)

/-- The accumulation loop of `split_summary_by_length` over the line list. -/
def splitLoop (maxLength : Nat) : List Char → List (List Char) → List (List Char)
  | currentPart, [] => if currentPart = [] then [] else [pyStrip currentPart]
  | currentPart, line :: rest =>
    if currentPart.length + line.length + 1 > maxLength ∧ currentPart ≠ [] then
      pyStrip currentPart :: splitLoop maxLength line rest
    else
      if currentPart = [] then splitLoop maxLength line rest
      else splitLoop maxLength (currentPart ++ '\n' :: line) rest

/-- `PostSummarizer.split_summary_by_length`. -/
def split_summary_by_length (summary : List Char) (maxLength : Nat) : List (List Char) :=
  if summary.length ≤ maxLength then [summary]
  else splitLoop maxLength [] (splitLines summary)

/-- `a` is a contiguous segment of `b`. -/
def SubSeg {α : Type} (a b : List α) : Prop := ∃ p q, b = p ++ a ++ q

/-! ## Helper lemmas on association lists -/

theorem lookupA_setA_self {κ β : Type} [DecidableEq κ] (k : κ) (v : β) (l : List (κ × β)) :
    lookupA k (setA k v l) = some v := by
  induction l with
  | nil => simp [setA, lookupA]
  | cons hd tl ih =>
    obtain ⟨k2, w⟩ := hd
    by_cases h : k2 = k
    · simp [setA, lookupA, h]
    · simp [setA, lookupA, h, ih]

theorem lookupA_setA_ne {κ β : Type} [DecidableEq κ] (k j : κ) (v : β) (l : List (κ × β))
    (hne : j ≠ k) : lookupA j (setA k v l) = lookupA j l := by
  induction l with
  | nil => simp [setA, lookupA, Ne.symm hne]
  | cons hd tl ih =>
    obtain ⟨k2, w⟩ := hd
    by_cases h : k2 = k
    · subst h
      simp [setA, lookupA, Ne.symm hne]
    · simp [setA, lookupA, h, ih]

theorem lookupA_delA_ne {κ β : Type} [DecidableEq κ] (k j : κ) (l : List (κ × β))
    (hne : j ≠ k) : lookupA j (delA k l) = lookupA j l := by
  induction l with
  | nil => simp [delA]
  | cons hd tl ih =>
    obtain ⟨k2, w⟩ := hd
    by_cases h : k2 = k
    · subst h
      simp [delA, lookupA, Ne.symm hne]
    · simp [delA, lookupA, h, ih]

theorem lookupA_eq_none_iff {κ β : Type} [DecidableEq κ] (k : κ) (l : List (κ × β)) :
    lookupA k l = none ↔ k ∉ l.map Prod.fst := by
  induction l with
  | nil => simp [lookupA]
  | cons hd tl ih =>
    obtain ⟨k2, w⟩ := hd
    by_cases h : k2 = k
    · simp [lookupA, h]
    · simp [lookupA, h, ih, Ne.symm h]

theorem lookupA_delA_self {κ β : Type} [DecidableEq κ] (k : κ) (l : List (κ × β))
    (hnd : (l.map Prod.fst).Nodup) : lookupA k (delA k l) = none := by
  induction l with
  | nil => simp [delA, lookupA]
  | cons hd tl ih =>
    obtain ⟨k2, w⟩ := hd
    simp only [List.map_cons, List.nodup_cons] at hnd
    by_cases h : k2 = k
    · subst h
      rw [delA, if_pos rfl, lookupA_eq_none_iff]
      exact hnd.1
    · rw [delA, if_neg h, lookupA, if_neg h]
      exact ih hnd.2

theorem delA_map_fst_sublist {κ β : Type} [DecidableEq κ] (k : κ) (l : List (κ × β)) :
    ((delA k l).map Prod.fst).Sublist (l.map Prod.fst) := by
  induction l with
  | nil => simp [delA]
  | cons hd tl ih =>
    obtain ⟨k2, w⟩ := hd
    by_cases h : k2 = k
    · rw [delA, if_pos h]
      simp only [List.map_cons]
      exact (List.Sublist.refl _).cons k2
    · rw [delA, if_neg h]
      simpa using ih.cons₂ k2

theorem setA_map_fst_of_none {κ β : Type} [DecidableEq κ] (k : κ) (v : β) (l : List (κ × β))
    (h : lookupA k l = none) : (setA k v l).map Prod.fst = l.map Prod.fst ++ [k] := by
  induction l with
  | nil => simp [setA]
  | cons hd tl ih =>
    obtain ⟨k2, w⟩ := hd
    rw [lookupA] at h
    by_cases hk : k2 = k
    · simp [hk] at h
    · rw [if_neg hk] at h
      simp [setA, hk, ih h]

/-! ## C1 / C2: the daily scan cache -/

theorem gdp_hit_eq (today : List Char) (res : List FoundPost) (s : DailyState)
    (h : s.last_scan_date = some today ∧ s.daily_posts_cache ≠ []) :
    get_daily_posts today res s = (s.daily_posts_cache, s, false) := by
  rw [get_daily_posts, if_pos h]

theorem gdp_miss_eq (today : List Char) (res : List FoundPost) (s : DailyState)
    (h : ¬(s.last_scan_date = some today ∧ s.daily_posts_cache ≠ [])) :
    get_daily_posts today res s = (res, ⟨res, some today, s.sent_today⟩, true) := by
  rw [get_daily_posts, if_neg h]
  simp

/-- C1: the claim says that on a calendar-date rollover `get_daily_posts`
clears `sent_today`.  Evaluating the embedded code at a state whose stored
scan date (2026-10-11) differs from today (2026-10-12) shows the cache is
rebuilt and restamped, but `sent_today` is left untouched: the reset is dead
code because `last_scan_date` is assigned `today` before the inequality test
reads it. -/
theorem C1_rollover_keeps_sent_today :
    (get_daily_posts "2026-10-12".data []
        ⟨[], some "2026-10-11".data, [42]⟩).2.1.sent_today = [42]
    ∧ (get_daily_posts "2026-10-12".data []
        ⟨[], some "2026-10-11".data, [42]⟩).2.1.last_scan_date = some "2026-10-12".data
    ∧ some "2026-10-11".data ≠ some "2026-10-12".data := by
  refine ⟨rfl, rfl, by decide⟩

/-- C2 counterexample: starting from the initial state on a fixed date, a
first call whose scan finds zero posts is followed by a second same-day call
that invokes the channel-source scan again — two invocations in total,
refuting "at most once in total ... including when the first scan found zero
posts". -/
theorem C2_empty_scan_rescans :
    (get_daily_posts "2026-10-12".data [] ⟨[], none, []⟩).2.2 = true
    ∧ (get_daily_posts "2026-10-12".data []
        (get_daily_posts "2026-10-12".data [] ⟨[], none, []⟩).2.1).2.2 = true := by
  exact ⟨rfl, rfl⟩

/-- C2 (amended): on the same calendar date, if the first call returned a
non-empty post list then the second call performs no scan and returns exactly
the cached value and state; if the first call returned the empty list, the
second call invokes the scan again. -/
theorem C2_same_day_cache (s : DailyState) (today : List Char)
    (res1 res2 : List FoundPost) :
    ((get_daily_posts today res1 s).1 ≠ [] →
      get_daily_posts today res2 (get_daily_posts today res1 s).2.1
        = ((get_daily_posts today res1 s).1, (get_daily_posts today res1 s).2.1, false))
    ∧ ((get_daily_posts today res1 s).1 = [] →
      (get_daily_posts today res2 (get_daily_posts today res1 s).2.1).2.2 = true) := by
  by_cases hc : s.last_scan_date = some today ∧ s.daily_posts_cache ≠ []
  · rw [gdp_hit_eq today res1 s hc]
    constructor
    · intro _
      exact gdp_hit_eq today res2 s hc
    · intro hnil
      exact absurd hnil hc.2
  · rw [gdp_miss_eq today res1 s hc]
    constructor
    · intro hne
      exact gdp_hit_eq today res2 _ ⟨rfl, hne⟩
    · intro hnil
      rw [gdp_miss_eq]
      rintro ⟨-, hcontra⟩
      exact hcontra hnil

/-! ## C9: setting the newsletter hour -/

/-- C9: `set_user_newsletter_time` returns `True` exactly when the user is
subscribed and `9 ≤ hour ≤ 20`; on success the hour map is updated at that
user only and the persisted file reflects the updated map; on rejection the
whole state (subscriber set, hour map, persisted file) is unchanged; and
`get_active_hours` never yields an hour outside 9..20. -/
theorem C9_set_newsletter_time (s : NewsState) (u hour : Nat) :
    ((set_user_newsletter_time s u hour).1 = true ↔
      u ∈ s.subscribed_users ∧ 9 ≤ hour ∧ hour ≤ 20)
    ∧ ((set_user_newsletter_time s u hour).1 = true →
        (set_user_newsletter_time s u hour).2.subscribed_users = s.subscribed_users
        ∧ lookupA u (set_user_newsletter_time s u hour).2.subscriber_times = some hour
        ∧ (∀ v, v ≠ u →
            lookupA v (set_user_newsletter_time s u hour).2.subscriber_times
              = lookupA v s.subscriber_times)
        ∧ (set_user_newsletter_time s u hour).2.saved_file
            = s.subscribed_users.map (fun v =>
                (v, (lookupA v (setA u hour s.subscriber_times)).getD 12)))
    ∧ ((set_user_newsletter_time s u hour).1 = false →
        (set_user_newsletter_time s u hour).2 = s)
    ∧ (∀ t : NewsState, ∀ h ∈ get_active_hours t, 9 ≤ h ∧ h ≤ 20) := by
  refine ⟨?_, ?_, ?_, ?_⟩
  · by_cases hc : u ∈ s.subscribed_users ∧ 9 ≤ hour ∧ hour ≤ 20
    · simp [set_user_newsletter_time, hc]
    · simp [set_user_newsletter_time, hc]
  · intro htrue
    by_cases hc : u ∈ s.subscribed_users ∧ 9 ≤ hour ∧ hour ≤ 20
    · refine ⟨?_, ?_, ?_, ?_⟩
      · simp [set_user_newsletter_time, hc, save_subscribers]
      · simp only [set_user_newsletter_time, if_pos hc, save_subscribers]
        exact lookupA_setA_self u hour s.subscriber_times
      · intro v hv
        simp only [set_user_newsletter_time, if_pos hc, save_subscribers]
        exact lookupA_setA_ne u v hour s.subscriber_times hv
      · simp [set_user_newsletter_time, hc, save_subscribers]
    · simp [set_user_newsletter_time, hc] at htrue
  · intro hfalse
    by_cases hc : u ∈ s.subscribed_users ∧ 9 ≤ hour ∧ hour ≤ 20
    · simp [set_user_newsletter_time, hc] at hfalse
    · simp [set_user_newsletter_time, hc]
  · intro t h hmem
    unfold get_active_hours at hmem
    split at hmem
    · simp at hmem
    · rw [List.mem_filter] at hmem
      have := hmem.2
      simp only [Bool.and_eq_true, decide_eq_true_eq] at this
      exact this

/-- C9 witness: with subscriber 7 at default hour, setting hour 15 succeeds
and updates-and-persists; setting hour 21 is rejected unchanged. -/
theorem C9_set_newsletter_time_witness :
    ((set_user_newsletter_time ⟨[7], [], []⟩ 7 15).1 = true ↔
      7 ∈ [7] ∧ 9 ≤ 15 ∧ 15 ≤ 20)
    ∧ ((set_user_newsletter_time ⟨[7], [], []⟩ 7 15).1 = true →
        (set_user_newsletter_time ⟨[7], [], []⟩ 7 15).2.subscribed_users = [7]
        ∧ lookupA 7 (set_user_newsletter_time ⟨[7], [], []⟩ 7 15).2.subscriber_times = some 15
        ∧ (∀ v, v ≠ 7 →
            lookupA v (set_user_newsletter_time ⟨[7], [], []⟩ 7 15).2.subscriber_times
              = lookupA v ([] : List (Nat × Nat)))
        ∧ (set_user_newsletter_time ⟨[7], [], []⟩ 7 15).2.saved_file
            = [7].map (fun v => (v, (lookupA v (setA 7 15 ([] : List (Nat × Nat)))).getD 12)))
    ∧ ((set_user_newsletter_time ⟨[7], [], []⟩ 7 15).1 = false →
        (set_user_newsletter_time ⟨[7], [], []⟩ 7 15).2 = ⟨[7], [], []⟩)
    ∧ (∀ t : NewsState, ∀ h ∈ get_active_hours t, 9 ≤ h ∧ h ≤ 20) :=
  C9_set_newsletter_time ⟨[7], [], []⟩ 7 15

/-! ## C10: tag matching -/

theorem find?_eq_some_split {α : Type} (p : α → Bool) (l : List α) (a : α)
    (h : l.find? p = some a) :
    p a = true ∧ ∃ l1 l2, l = l1 ++ a :: l2 ∧ ∀ x ∈ l1, p x = false := by
  induction l with
  | nil => simp [List.find?] at h
  | cons hd tl ih =>
    rw [List.find?] at h
    cases hp : p hd with
    | true =>
      rw [hp] at h
      obtain rfl : hd = a := by simpa using h
      exact ⟨hp, [], tl, rfl, by simp⟩
    | false =>
      rw [hp] at h
      obtain ⟨hpa, l1, l2, rfl, hall⟩ := ih h
      refine ⟨hpa, hd :: l1, l2, rfl, ?_⟩
      intro x hx
      rcases List.mem_cons.mp hx with rfl | hx2
      · exact hp
      · exact hall x hx2

/-- C10: `has_target_tags` is `none` on empty text; when it returns a tag,
that tag is in `target_tags`, occurs in the lowercased text, and every tag
earlier in the configured list does not occur (priority by list order, not by
position in the text); when it returns `none` on non-empty text, no target
tag occurs at all. -/
theorem C10_tag_priority :
    (∀ text : List Char, text = [] → has_target_tags text = none)
    ∧ (∀ text tag, has_target_tags text = some tag →
        tag ∈ target_tags ∧ occursIn tag (pyLower text) = true ∧
        ∃ l1 l2, target_tags = l1 ++ tag :: l2 ∧
          ∀ t ∈ l1, occursIn t (pyLower text) = false)
    ∧ (∀ text, has_target_tags text = none →
        text = [] ∨ ∀ t ∈ target_tags, occursIn t (pyLower text) = false) := by
  refine ⟨?_, ?_, ?_⟩
  · intro text htext
    rw [has_target_tags, if_pos htext]
  · intro text tag h
    rw [has_target_tags] at h
    split at h
    · exact absurd h (by simp)
    · obtain ⟨hp, l1, l2, heq, hall⟩ := find?_eq_some_split _ _ _ h
      refine ⟨?_, hp, l1, l2, heq, hall⟩
      rw [heq]
      exact List.mem_append_right _ (List.mem_cons_self _ _)
  · intro text h
    by_cases htext : text = []
    · exact Or.inl htext
    · right
      rw [has_target_tags, if_neg htext] at h
      intro t ht
      have := List.find?_eq_none.mp h t ht
      simpa using this

/-- C10 witness: in a text containing both "внж" (earlier in the text) and
"налоги" (earlier in the tag list), the stored tag is "налоги". -/
theorem C10_tag_priority_witness :
    "налоги".data ∈ target_tags
      ∧ occursIn "налоги".data (pyLower "Про ВНЖ и налоги".data) = true
      ∧ ∃ l1 l2, target_tags = l1 ++ "налоги".data :: l2 ∧
          ∀ t ∈ l1, occursIn t (pyLower "Про ВНЖ и налоги".data) = false :=
  C10_tag_priority.2.1 "Про ВНЖ и налоги".data "налоги".data (by decide)

/-! ## C8: next-wake computation -/

theorem min_some_spec (l : List Nat) (a : Nat) (h : l.min? = some a) :
    a ∈ l ∧ ∀ b ∈ l, a ≤ b := by
  rw [List.min?_eq_some_iff] at h
  · exact h
  all_goals intros; omega

/-- C8: under the system invariant that active hours lie in 9..20,
`_find_next_active_hour` succeeds and returns a timestamp strictly after
`now`; with no active hours it is 9:00 on the following day, otherwise it is
the earliest among all active-hour timestamps (today and the following day)
that lie strictly after `now`. -/
theorem C8_next_wake (now : PyDateTime) (active : List Nat)
    (hrange : ∀ h ∈ active, 9 ≤ h ∧ h ≤ 20) :
    ∃ t, find_next_active_hour now active = some t
      ∧ dtLt now t
      ∧ ((active = [] ∧ t = replaceHourZero (addOneDay now) 9)
         ∨ (t ∈ activeTimestamps now active
            ∧ ∀ u ∈ activeTimestamps now active, dtLt now u → dtLe t u)) := by
  unfold find_next_active_hour
  cases hm : (active.filter (fun h => now.hour < h && 9 ≤ h && h ≤ 20)).min? with
  | some m =>
    obtain ⟨hmem, hmin⟩ := min_some_spec _ _ hm
    rw [List.mem_filter] at hmem
    obtain ⟨hmA, hcond⟩ := hmem
    have hhm : now.hour < m := by
      simp only [Bool.and_eq_true, decide_eq_true_eq] at hcond
      exact hcond.1.1
    refine ⟨replaceHourZero now m, rfl, Or.inr ⟨rfl, Or.inl hhm⟩, Or.inr ⟨?_, ?_⟩⟩
    · exact List.mem_append_left _ (List.mem_map_of_mem _ hmA)
    · intro u hu hlt
      rw [activeTimestamps, List.mem_append] at hu
      rcases hu with hu | hu
      · obtain ⟨h, hh, rfl⟩ := List.mem_map.mp hu
        have hh2 : now.hour < h := by
          rcases hlt with h1 | ⟨h2, h3⟩
          · exact absurd h1 (by simp [replaceHourZero])
          · rcases h3 with h4 | ⟨h5, h6⟩
            · exact h4
            · exact absurd h6 (by simp [replaceHourZero])
        have hfil : h ∈ active.filter (fun h => now.hour < h && 9 ≤ h && h ≤ 20) := by
          rw [List.mem_filter]
          refine ⟨hh, ?_⟩
          simp only [Bool.and_eq_true, decide_eq_true_eq]
          exact ⟨⟨hh2, (hrange h hh).1⟩, (hrange h hh).2⟩
        have hmh := hmin h hfil
        rcases Nat.lt_or_ge m h with hlt2 | hge
        · exact Or.inl (Or.inr ⟨rfl, Or.inl hlt2⟩)
        · have hmeq : m = h := Nat.le_antisymm hmh hge
          exact Or.inr (by rw [replaceHourZero, replaceHourZero, hmeq])
      · obtain ⟨h, hh, rfl⟩ := List.mem_map.mp hu
        exact Or.inl (Or.inl (by simp [replaceHourZero, addOneDay]))
  | none =>
    have hfilnil := List.min?_eq_none_iff.mp hm
    have hnone : ∀ h ∈ active, ¬(now.hour < h) := by
      intro h hh hcon
      have : h ∈ ([] : List Nat) := by
        rw [← hfilnil, List.mem_filter]
        refine ⟨hh, ?_⟩
        simp only [Bool.and_eq_true, decide_eq_true_eq]
        exact ⟨⟨hcon, (hrange h hh).1⟩, (hrange h hh).2⟩
      simp at this
    by_cases hA : active = []
    · subst hA
      refine ⟨replaceHourZero (addOneDay now) 9, by simp, ?_, Or.inl ⟨rfl, rfl⟩⟩
      exact Or.inl (by simp [replaceHourZero, addOneDay])
    · rw [if_pos hA]
      have hflt : active.filter (fun h => 9 ≤ h && h ≤ 20) = active := by
        rw [List.filter_eq_self]
        intro a ha
        simp only [Bool.and_eq_true, decide_eq_true_eq]
        exact ⟨(hrange a ha).1, (hrange a ha).2⟩
      rw [hflt]
      cases hm2 : active.min? with
      | none => exact absurd (List.min?_eq_none_iff.mp hm2) hA
      | some m =>
        obtain ⟨hmem2, hmin2⟩ := min_some_spec _ _ hm2
        refine ⟨replaceHourZero (addOneDay now) m, rfl, ?_, Or.inr ⟨?_, ?_⟩⟩
        · exact Or.inl (by simp [replaceHourZero, addOneDay])
        · exact List.mem_append_right _ (List.mem_map_of_mem _ hmem2)
        · intro u hu hlt
          rw [activeTimestamps, List.mem_append] at hu
          rcases hu with hu | hu
          · obtain ⟨h, hh, rfl⟩ := List.mem_map.mp hu
            have hh2 : now.hour < h := by
              rcases hlt with h1 | ⟨h2, h3⟩
              · exact absurd h1 (by simp [replaceHourZero])
              · rcases h3 with h4 | ⟨h5, h6⟩
                · exact h4
                · exact absurd h6 (by simp [replaceHourZero])
            exact absurd hh2 (hnone h hh)
          · obtain ⟨h, hh, rfl⟩ := List.mem_map.mp hu
            have hmh := hmin2 h hh
            rcases Nat.lt_or_ge m h with hlt2 | hge
            · exact Or.inl (Or.inr ⟨rfl, Or.inl hlt2⟩)
            · have hmeq : m = h := Nat.le_antisymm hmh hge
              exact Or.inr (by rw [replaceHourZero, replaceHourZero, hmeq])

/-- C8 witness: at 12:xx with active hours 10 and 15, the next wake is today
at 15:00. -/
theorem C8_next_wake_witness :
    ∃ t, find_next_active_hour ⟨700, 12, 35⟩ [10, 15] = some t
      ∧ dtLt ⟨700, 12, 35⟩ t
      ∧ (([10, 15] = ([] : List Nat) ∧ t = replaceHourZero (addOneDay ⟨700, 12, 35⟩) 9)
         ∨ (t ∈ activeTimestamps ⟨700, 12, 35⟩ [10, 15]
            ∧ ∀ u ∈ activeTimestamps ⟨700, 12, 35⟩ [10, 15],
                dtLt ⟨700, 12, 35⟩ u → dtLe t u)) :=
  C8_next_wake ⟨700, 12, 35⟩ [10, 15] (by decide)

/-! ## C5: chunked delivery -/

theorem pyStrip_length_le (l : List Char) : (pyStrip l).length ≤ l.length := by
  unfold pyStrip
  rw [List.length_reverse]
  calc ((l.dropWhile pyIsSpace).reverse.dropWhile pyIsSpace).length
      ≤ (l.dropWhile pyIsSpace).reverse.length := (List.dropWhile_sublist _).length_le
    _ = (l.dropWhile pyIsSpace).length := List.length_reverse _
    _ ≤ l.length := (List.dropWhile_sublist _).length_le

theorem splitLoop_length_le (maxLength : Nat) :
    ∀ (rest : List (List Char)) (cp : List Char), cp.length ≤ maxLength →
      (∀ line ∈ rest, line.length ≤ maxLength) →
      ∀ c ∈ splitLoop maxLength cp rest, c.length ≤ maxLength := by
  intro rest
  induction rest with
  | nil =>
    intro cp hcp _ c hc
    simp only [splitLoop] at hc
    split at hc
    · simp at hc
    · rw [List.mem_singleton] at hc
      subst hc
      exact le_trans (pyStrip_length_le cp) hcp
  | cons line rest2 ih =>
    intro cp hcp hrest c hc
    have hline : line.length ≤ maxLength := hrest line (by simp)
    have hrest2 : ∀ l ∈ rest2, l.length ≤ maxLength := fun l hl => hrest l (by simp [hl])
    simp only [splitLoop] at hc
    split at hc
    · rcases List.mem_cons.mp hc with rfl | hc2
      · exact le_trans (pyStrip_length_le cp) hcp
      · exact ih line hline hrest2 c hc2
    · rename_i h1
      split at hc
      · exact ih line hline hrest2 c hc
      · rename_i h2
        have hfit : cp.length + line.length + 1 ≤ maxLength := by
          by_contra hgt
          exact h1 ⟨by omega, h2⟩
        refine ih (cp ++ '\n' :: line) ?_ hrest2 c hc
        simp only [List.length_append, List.length_cons]
        omega

theorem joinLines_append_single (run : List (List Char)) (line : List Char) (h : run ≠ []) :
    joinLines (run ++ [line]) = joinLines run ++ '\n' :: line := by
  induction run with
  | nil => simp at h
  | cons x xs ih =>
    cases xs with
    | nil => simp [joinLines]
    | cons y ys =>
      have hih := ih (by simp)
      simp only [List.cons_append] at hih ⊢
      rw [joinLines, joinLines]
      · rw [hih, List.append_assoc]
        simp

theorem splitLoop_run (maxLength : Nat) (full : List (List Char)) :
    ∀ (rest : List (List Char)) (cp : List Char) (pre run : List (List Char)),
      full = pre ++ run ++ rest → cp = joinLines run →
      ∀ c ∈ splitLoop maxLength cp rest,
        ∃ run2, run2 ≠ [] ∧ SubSeg run2 full ∧ c = pyStrip (joinLines run2) := by
  intro rest
  induction rest with
  | nil =>
    intro cp pre run hfull hcp c hc
    simp only [splitLoop] at hc
    split at hc
    · simp at hc
    · rename_i hne
      rw [List.mem_singleton] at hc
      subst hc
      refine ⟨run, ?_, ⟨pre, [], hfull⟩, by rw [hcp]⟩
      rintro rfl
      exact hne (by simp [hcp, joinLines])
  | cons line rest2 ih =>
    intro cp pre run hfull hcp c hc
    have hshift : full = (pre ++ run) ++ [line] ++ rest2 := by
      rw [hfull]
      simp [List.append_assoc]
    simp only [splitLoop] at hc
    split at hc
    · rename_i hcond
      rcases List.mem_cons.mp hc with rfl | hc2
      · refine ⟨run, ?_, ⟨pre, line :: rest2, hfull⟩, by rw [hcp]⟩
        rintro rfl
        exact hcond.2 (by simp [hcp, joinLines])
      · exact ih line (pre ++ run) [line] hshift (by simp [joinLines]) c hc2
    · split at hc
      · exact ih line (pre ++ run) [line] hshift (by simp [joinLines]) c hc
      · rename_i h1 h2
        have hrun : run ≠ [] := by
          rintro rfl
          exact h2 (by simp [hcp, joinLines])
        refine ih (cp ++ '\n' :: line) pre (run ++ [line]) ?_ ?_ c hc
        · rw [hfull]
          simp [List.append_assoc]
        · rw [hcp, joinLines_append_single run line hrun]

/-- C5 counterexample: with `max_length = 3` and the single-line input
"aaaaa", `split_summary_by_length` returns a chunk of length 5, refuting
"every chunk has length at most max_length" for arbitrary inputs. -/
theorem C5_overlong_line_cex :
    ¬ ∀ c ∈ split_summary_by_length "aaaaa".data 3, c.length ≤ 3 := by decide

theorem splitLoop_overlong_self (maxLength : Nat)
    (cp : List Char) (rest : List (List Char)) (hcp : maxLength < cp.length) :
    pyStrip cp ∈ splitLoop maxLength cp rest := by
  cases rest with
  | nil =>
    simp only [splitLoop]
    rw [if_neg (by rintro rfl; simp at hcp)]
    simp
  | cons l2 rest2 =>
    simp only [splitLoop]
    rw [if_pos ⟨by omega, by rintro rfl; simp at hcp⟩]
    exact List.mem_cons_self _ _

theorem splitLoop_overlong_mem (maxLength : Nat) :
    ∀ (rest : List (List Char)) (cp line : List Char),
      line ∈ rest → maxLength < line.length →
      pyStrip line ∈ splitLoop maxLength cp rest := by
  intro rest
  induction rest with
  | nil =>
    intro cp line hmem _
    simp at hmem
  | cons l2 rest2 ih =>
    intro cp line hmem hlen
    rcases List.mem_cons.mp hmem with rfl | hmem2
    · simp only [splitLoop]
      split
      · exact List.mem_cons_of_mem _ (splitLoop_overlong_self maxLength line rest2 hlen)
      · rename_i hneg
        split
        · exact splitLoop_overlong_self maxLength line rest2 hlen
        · rename_i hne
          exfalso
          have : ¬(cp.length + line.length + 1 > maxLength) := fun hA => hneg ⟨hA, hne⟩
          omega
    · simp only [splitLoop]
      split
      · exact List.mem_cons_of_mem _ (ih l2 line hmem2 hlen)
      · split
        · exact ih l2 line hmem2 hlen
        · exact ih (cp ++ '\n' :: l2) line hmem2 hlen

/-- C5 (amended): every chunk has length at most `max_length` provided every
line of the input has length at most `max_length`; short inputs are returned
whole; for long inputs every chunk is (up to outer whitespace stripping) the
newline-join of a contiguous nonempty run of input lines, so no line is ever
split across two chunks — unconditionally, overlong lines included; and a
single line longer than `max_length` is emitted, stripped of outer
whitespace, as a chunk of its own. -/
theorem C5_chunking (summary : List Char) (maxLength : Nat) (_h0 : 0 < maxLength) :
    ((∀ line ∈ splitLines summary, line.length ≤ maxLength) →
        ∀ c ∈ split_summary_by_length summary maxLength, c.length ≤ maxLength)
    ∧ (summary.length ≤ maxLength →
        split_summary_by_length summary maxLength = [summary])
    ∧ (maxLength < summary.length →
        ∀ c ∈ split_summary_by_length summary maxLength,
          ∃ run, run ≠ [] ∧ SubSeg run (splitLines summary)
            ∧ c = pyStrip (joinLines run))
    ∧ (maxLength < summary.length →
        ∀ line ∈ splitLines summary, maxLength < line.length →
          pyStrip line ∈ split_summary_by_length summary maxLength) := by
  refine ⟨?_, ?_, ?_, ?_⟩
  · intro hlines c hc
    rw [split_summary_by_length] at hc
    split at hc
    · rename_i hle
      rw [List.mem_singleton] at hc
      subst hc
      exact hle
    · exact splitLoop_length_le maxLength (splitLines summary) [] (by simp) hlines c hc
  · intro hle
    rw [split_summary_by_length, if_pos hle]
  · intro hgt c hc
    rw [split_summary_by_length, if_neg (by omega)] at hc
    exact splitLoop_run maxLength (splitLines summary) (splitLines summary) [] [] []
      (by simp) (by simp [joinLines]) c hc
  · intro hgt line hline hlen
    rw [split_summary_by_length, if_neg (by omega)]
    exact splitLoop_overlong_mem maxLength (splitLines summary) [] line hline hlen

/-- C5 witness: the three-line input "ab\ncd\nef" with `max_length = 5`,
line bound discharged concretely for the length conjunct. -/
theorem C5_chunking_witness :
    (∀ c ∈ split_summary_by_length "ab\ncd\nef".data 5, c.length ≤ 5)
    ∧ ("ab\ncd\nef".data.length ≤ 5 →
        split_summary_by_length "ab\ncd\nef".data 5 = ["ab\ncd\nef".data])
    ∧ (5 < "ab\ncd\nef".data.length →
        ∀ c ∈ split_summary_by_length "ab\ncd\nef".data 5,
          ∃ run, run ≠ [] ∧ SubSeg run (splitLines "ab\ncd\nef".data)
            ∧ c = pyStrip (joinLines run))
    ∧ (5 < "ab\ncd\nef".data.length →
        ∀ line ∈ splitLines "ab\ncd\nef".data, 5 < line.length →
          pyStrip line ∈ split_summary_by_length "ab\ncd\nef".data 5) :=
  have h := C5_chunking "ab\ncd\nef".data 5 (by decide)
  ⟨h.1 (by decide), h.2.1, h.2.2.1, h.2.2.2⟩

/-! ## C6: the batch partitioner -/

theorem mem_of_lookupA {κ β : Type} [DecidableEq κ] (k : κ) (v : β) (l : List (κ × β))
    (h : lookupA k l = some v) : (k, v) ∈ l := by
  induction l with
  | nil => simp [lookupA] at h
  | cons hd tl ih =>
    obtain ⟨k2, w⟩ := hd
    rw [lookupA] at h
    by_cases hk : k2 = k
    · rw [if_pos hk] at h
      obtain rfl : w = v := by simpa using h
      subst hk
      exact List.mem_cons_self _ _
    · rw [if_neg hk] at h
      exact List.mem_cons_of_mem _ (ih h)

theorem lookupA_of_mem_nodup {κ β : Type} [DecidableEq κ] (k : κ) (v : β)
    (l : List (κ × β)) (h : (k, v) ∈ l) (hnd : (l.map Prod.fst).Nodup) :
    lookupA k l = some v := by
  induction l with
  | nil => simp at h
  | cons hd tl ih =>
    obtain ⟨k2, w⟩ := hd
    simp only [List.map_cons, List.nodup_cons] at hnd
    rcases List.mem_cons.mp h with heq | hmem
    · obtain ⟨rfl, rfl⟩ := Prod.mk.injEq .. ▸ heq
      injection heq with h1 h2
      rw [lookupA, if_pos rfl]
    · by_cases hk : k2 = k
      · subst hk
        exact absurd (List.mem_map_of_mem Prod.fst hmem) hnd.1
      · rw [lookupA, if_neg hk]
        exact ih hmem hnd.2

theorem lookupA_dictAppend (acc : List (List Char × List SPost)) (c0 : List Char)
    (p : SPost) (c : List Char) :
    lookupA c (dictAppend acc c0 p)
      = if c = c0 then some ((lookupA c acc).getD [] ++ [p]) else lookupA c acc := by
  induction acc with
  | nil =>
    by_cases hc : c = c0
    · subst hc
      simp [dictAppend, lookupA]
    · simp [dictAppend, lookupA, hc, Ne.symm hc]
  | cons hd tl ih =>
    obtain ⟨k2, l⟩ := hd
    by_cases hk : k2 = c0
    · subst hk
      by_cases hc : c = k2
      · subst hc
        simp [dictAppend, lookupA]
      · simp [dictAppend, lookupA, hc, Ne.symm hc]
    · rw [dictAppend, if_neg hk]
      by_cases hc : k2 = c
      · subst hc
        rw [lookupA, if_pos rfl, if_neg hk, lookupA, if_pos rfl]
      · rw [lookupA, if_neg hc, ih]
        by_cases hcc : c = c0
        · rw [if_pos hcc, if_pos hcc, lookupA, if_neg hc]
        · rw [if_neg hcc, if_neg hcc, lookupA, if_neg hc]

theorem dictAppend_map_fst (acc : List (List Char × List SPost)) (c0 : List Char)
    (p : SPost) :
    (dictAppend acc c0 p).map Prod.fst
      = if lookupA c0 acc = none then acc.map Prod.fst ++ [c0] else acc.map Prod.fst := by
  induction acc with
  | nil => simp [dictAppend, lookupA]
  | cons hd tl ih =>
    obtain ⟨k2, l⟩ := hd
    by_cases hk : k2 = c0
    · subst hk
      simp [dictAppend, lookupA]
    · rw [dictAppend, if_neg hk, lookupA, if_neg hk]
      simp only [List.map_cons, ih]
      split
      · simp
      · rfl

theorem foldl_dictAppend_spec :
    ∀ (rest : List SPost) (acc : List (List Char × List SPost)) (prior : List SPost),
      (∀ c, lookupA c acc
          = (if prior.filter (fun p => p.channel = c) = [] then none
             else some (prior.filter (fun p => p.channel = c)))) →
      (acc.map Prod.fst).Nodup →
      (∀ c, lookupA c (rest.foldl (fun a p => dictAppend a p.channel p) acc)
          = (if (prior ++ rest).filter (fun p => p.channel = c) = [] then none
             else some ((prior ++ rest).filter (fun p => p.channel = c))))
      ∧ ((rest.foldl (fun a p => dictAppend a p.channel p) acc).map Prod.fst).Nodup := by
  intro rest
  induction rest with
  | nil =>
    intro acc prior h1 h2
    simp only [List.foldl_nil, List.append_nil]
    exact ⟨h1, h2⟩
  | cons p rest2 ih =>
    intro acc prior h1 h2
    have hstep1 : ∀ c, lookupA c (dictAppend acc p.channel p)
        = (if (prior ++ [p]).filter (fun q => q.channel = c) = [] then none
           else some ((prior ++ [p]).filter (fun q => q.channel = c))) := by
      intro c
      rw [lookupA_dictAppend, List.filter_append]
      by_cases hc : c = p.channel
      · rw [if_pos hc]
        have hp1 : [p].filter (fun q => q.channel = c) = [p] := by simp [hc]
        rw [hp1, h1 c]
        by_cases hnil : prior.filter (fun q => q.channel = c) = []
        · rw [if_pos hnil, hnil]
          simp
        · rw [if_neg hnil, if_neg (by simp [hnil])]
          simp
      · rw [if_neg hc]
        have hp0 : [p].filter (fun q => q.channel = c) = [] := by
          simp [Ne.symm hc]
        rw [hp0, List.append_nil, h1 c]
    have hstep2 : ((dictAppend acc p.channel p).map Prod.fst).Nodup := by
      rw [dictAppend_map_fst]
      split
      · rename_i hnone
        rw [List.nodup_append]
        refine ⟨h2, List.nodup_singleton _, ?_⟩
        intro x hx hx2
        rw [List.mem_singleton] at hx2
        subst hx2
        exact (lookupA_eq_none_iff _ _).mp hnone hx
      · exact h2
    have hmain := ih (dictAppend acc p.channel p) (prior ++ [p]) hstep1 hstep2
    constructor
    · intro c
      have := hmain.1 c
      rwa [List.append_assoc, List.singleton_append] at this
    · exact hmain.2

theorem channels_posts_lookup (posts : List SPost) :
    (∀ c, lookupA c (channels_posts_of posts)
        = (if posts.filter (fun p => p.channel = c) = [] then none
           else some (posts.filter (fun p => p.channel = c))))
    ∧ ((channels_posts_of posts).map Prod.fst).Nodup := by
  have := foldl_dictAppend_spec posts [] [] (by intro c; simp [lookupA]) (by simp)
  simpa [channels_posts_of] using this

theorem chunksOf_flatten {α : Type} (bs : Nat) (l : List α) :
    (chunksOf bs l).flatten = l := by
  generalize hn : l.length = n
  induction n using Nat.strong_induction_on generalizing l with
  | _ n ih =>
    cases l with
    | nil => simp [chunksOf]
    | cons x xs =>
      have hdrop : (xs.drop (bs - 1)).length < n := by
        subst hn
        have := List.length_drop (bs - 1) xs
        simp only [List.length_cons]
        omega
      rw [chunksOf]
      simp only [List.flatten_cons]
      rw [ih _ hdrop _ rfl, List.cons_append, List.take_append_drop]

theorem chunksOf_mem_bounds {α : Type} (bs : Nat) (hbs : 1 ≤ bs) (l : List α) :
    ∀ b ∈ chunksOf bs l, b ≠ [] ∧ b.length ≤ bs := by
  generalize hn : l.length = n
  induction n using Nat.strong_induction_on generalizing l with
  | _ n ih =>
    cases l with
    | nil => simp [chunksOf]
    | cons x xs =>
      have hdrop : (xs.drop (bs - 1)).length < n := by
        subst hn
        have := List.length_drop (bs - 1) xs
        simp only [List.length_cons]
        omega
      intro b hb
      rw [chunksOf] at hb
      rcases List.mem_cons.mp hb with rfl | hb2
      · refine ⟨by simp, ?_⟩
        have := List.length_take (bs - 1) xs
        simp only [List.length_cons, this]
        omega
      · exact ih _ hdrop _ rfl b hb2

theorem chunksOf_length {α : Type} (bs : Nat) (hbs : 1 ≤ bs) (l : List α) :
    (chunksOf bs l).length = (l.length + bs - 1) / bs := by
  generalize hn : l.length = n
  induction n using Nat.strong_induction_on generalizing l with
  | _ n ih =>
    cases l with
    | nil =>
      simp only [List.length_nil] at hn
      subst hn
      rw [chunksOf]
      simp only [List.length_nil]
      rw [Nat.div_eq_of_lt (by omega : 0 + bs - 1 < bs)]
    | cons x xs =>
      simp only [List.length_cons] at hn
      subst hn
      have hdroplen : (xs.drop (bs - 1)).length = xs.length - (bs - 1) :=
        List.length_drop ..
      have hdrop : (xs.drop (bs - 1)).length < xs.length + 1 := by omega
      rw [chunksOf, List.length_cons, ih _ hdrop _ rfl, hdroplen]
      have hre : xs.length + 1 + bs - 1 = xs.length + bs := by omega
      rw [hre, Nat.add_div_right _ (by omega : 0 < bs)]
      rcases Nat.lt_or_ge xs.length (bs - 1) with hlt | hge
      · have h1 : xs.length - (bs - 1) + bs - 1 = bs - 1 := by omega
        rw [h1, Nat.div_eq_of_lt (by omega : bs - 1 < bs),
            Nat.div_eq_of_lt (by omega : xs.length < bs)]
      · have h1 : xs.length - (bs - 1) + bs - 1 = xs.length := by omega
        rw [h1]

/-- C6: the batch partitioner is a pure function whose grouping is stable
(a channel's grouped list is exactly the sub-list of input posts with that
channel, in input order), the channel keys are distinct, every input post
belongs to some group, and each channel's batches are nonempty slices of at
most `batch_size` posts whose concatenation in index order is the grouped
list, with `ceil(count / batch_size)` batches in total. -/
theorem C6_batch_partitioner (posts : List SPost) (bs : Nat) (hbs : 1 ≤ bs) :
    (∀ c l, (c, l) ∈ channels_posts_of posts →
      l = posts.filter (fun p => p.channel = c))
    ∧ (∀ p ∈ posts, ∃ l, (p.channel, l) ∈ channels_posts_of posts)
    ∧ ((channels_posts_of posts).map Prod.fst).Nodup
    ∧ (∀ c l, (c, l) ∈ channels_posts_of posts →
        (chunksOf bs l).flatten = l
        ∧ (∀ b ∈ chunksOf bs l, b ≠ [] ∧ b.length ≤ bs)
        ∧ (chunksOf bs l).length = (l.length + bs - 1) / bs) := by
  obtain ⟨hlook, hnd⟩ := channels_posts_lookup posts
  refine ⟨?_, ?_, hnd, ?_⟩
  · intro c l hmem
    have := lookupA_of_mem_nodup c l _ hmem hnd
    rw [hlook c] at this
    split at this
    · exact absurd this (by simp)
    · exact (Option.some.injEq .. ▸ this).symm
  · intro p hp
    have hne : posts.filter (fun q => q.channel = p.channel) ≠ [] := by
      intro hnil
      have : p ∈ posts.filter (fun q => q.channel = p.channel) :=
        List.mem_filter.mpr ⟨hp, by simp⟩
      rw [hnil] at this
      simp at this
    refine ⟨posts.filter (fun q => q.channel = p.channel), ?_⟩
    apply mem_of_lookupA
    rw [hlook p.channel, if_neg hne]
  · intro c l _
    exact ⟨chunksOf_flatten bs l, chunksOf_mem_bounds bs hbs l, chunksOf_length bs hbs l⟩

/-- C6 witness: three posts in two channels with `batch_size = 1`. -/
theorem C6_batch_partitioner_witness :
    (∀ c l, (c, l) ∈ channels_posts_of [⟨"a".data, "p1".data⟩, ⟨"b".data, "p2".data⟩,
        ⟨"a".data, "p3".data⟩] →
      l = [(⟨"a".data, "p1".data⟩ : SPost), ⟨"b".data, "p2".data⟩,
          ⟨"a".data, "p3".data⟩].filter (fun p => p.channel = c))
    ∧ (∀ p ∈ [(⟨"a".data, "p1".data⟩ : SPost), ⟨"b".data, "p2".data⟩,
        ⟨"a".data, "p3".data⟩], ∃ l,
        (p.channel, l) ∈ channels_posts_of [⟨"a".data, "p1".data⟩, ⟨"b".data, "p2".data⟩,
          ⟨"a".data, "p3".data⟩])
    ∧ ((channels_posts_of [(⟨"a".data, "p1".data⟩ : SPost), ⟨"b".data, "p2".data⟩,
        ⟨"a".data, "p3".data⟩]).map Prod.fst).Nodup
    ∧ (∀ c l, (c, l) ∈ channels_posts_of [⟨"a".data, "p1".data⟩, ⟨"b".data, "p2".data⟩,
        ⟨"a".data, "p3".data⟩] →
        (chunksOf 1 l).flatten = l
        ∧ (∀ b ∈ chunksOf 1 l, b ≠ [] ∧ b.length ≤ 1)
        ∧ (chunksOf 1 l).length = (l.length + 1 - 1) / 1) :=
  C6_batch_partitioner
    [⟨"a".data, "p1".data⟩, ⟨"b".data, "p2".data⟩, ⟨"a".data, "p3".data⟩] 1 (by decide)

/-! ## C4: the concurrency bound -/

theorem countHolding_set (l : List TStatus) (i : Nat) (a b : TStatus)
    (h : l[i]? = some a) :
    countHolding (l.set i b) + (if a = TStatus.holding then 1 else 0)
      = countHolding l + (if b = TStatus.holding then 1 else 0) := by
  induction l generalizing i with
  | nil => simp at h
  | cons x xs ih =>
    cases i with
    | zero =>
      obtain rfl : x = a := by simpa using h
      simp only [List.set_cons_zero, countHolding]
      omega
    | succ j =>
      have hj := ih j (by simpa using h)
      simp only [List.set_cons_succ, countHolding]
      omega

theorem countHolding_replicate (m : Nat) :
    countHolding (List.replicate m TStatus.pending) = 0 := by
  induction m with
  | zero => simp [countHolding]
  | succ k ih => simp [List.replicate, countHolding, ih]

theorem semStep_preserves (s t : SemState) (hstep : SemStep s t) :
    t.avail + countHolding t.tasks = s.avail + countHolding s.tasks := by
  cases hstep with
  | acquire i hi hpos =>
    have hc := countHolding_set s.tasks i TStatus.pending TStatus.holding hi
    simp at hc
    show s.avail - 1 + countHolding (s.tasks.set i TStatus.holding)
      = s.avail + countHolding s.tasks
    omega
  | release i hi =>
    have hc := countHolding_set s.tasks i TStatus.holding TStatus.done hi
    simp at hc
    show s.avail + 1 + countHolding (s.tasks.set i TStatus.done)
      = s.avail + countHolding s.tasks
    omega

theorem semReach_invariant (n m : Nat) (s : SemState)
    (h : Relation.ReflTransGen SemStep (initSemState n m) s) :
    s.avail + countHolding s.tasks = n := by
  induction h with
  | refl => simp [initSemState, countHolding_replicate]
  | tail _ hbc ih => exact (semStep_preserves _ _ hbc).trans ih

/-- C4: in every state reachable from the initial dispatcher state (semaphore
at `N ≥ 1`, any number `m` of batch tasks pending), at most `N` worker tasks
simultaneously hold the concurrency limiter. -/
theorem C4_concurrency_bound (n m : Nat) (s : SemState) (_hn : 1 ≤ n)
    (hreach : Relation.ReflTransGen SemStep (initSemState n m) s) :
    countHolding s.tasks ≤ n := by
  have := semReach_invariant n m s hreach
  omega

/-- C4 witness: with `N = 1` and two tasks, the state after one acquire is
reachable and holds the bound. -/
theorem C4_concurrency_bound_witness :
    countHolding (SemState.mk 0 [TStatus.holding, TStatus.pending]).tasks ≤ 1 :=
  C4_concurrency_bound 1 2 ⟨0, [TStatus.holding, TStatus.pending]⟩ (by decide)
    (Relation.ReflTransGen.single
      (SemStep.acquire (initSemState 1 2) 0 rfl (by decide)))

/-! ## C3 / C7: the ordering reassembler -/

theorem drainBuffer_eq {α : Type} (total : Nat) (s : AsmState α) :
    drainBuffer total s =
      if h : (lookupA s.nextIdx s.buffer).isSome ∧ s.nextIdx ≤ total then
        drainBuffer total
          ⟨delA s.nextIdx s.buffer, s.nextIdx + 1,
           s.sent ++ [(lookupA s.nextIdx s.buffer).get h.1]⟩
      else s := by
  rw [drainBuffer]

theorem drainBuffer_inv {α : Type} (total : Nat) (f : Nat → α) (P : List Nat) :
    ∀ (k : Nat) (s : AsmState α), total + 1 - s.nextIdx ≤ k →
      AsmPre total f P s → AsmInv total f P (drainBuffer total s) := by
  intro k
  induction k with
  | zero =>
    intro s hk hpre
    obtain ⟨h1, h2, h4, h5, h6, h7⟩ := hpre
    have hout : s.nextIdx ∉ P := by
      intro hin
      have := (h7 s.nextIdx hin).2
      omega
    have hlook : lookupA s.nextIdx s.buffer = none := by
      rw [h5 s.nextIdx, if_neg (fun hc => hout hc.1)]
    rw [drainBuffer_eq, dif_neg (by rw [hlook]; rintro ⟨hsome, -⟩; simp at hsome)]
    exact ⟨h1, h2, hout, h4, h5, h6, h7⟩
  | succ k ih =>
    intro s hk hpre
    obtain ⟨h1, h2, h4, h5, h6, h7⟩ := hpre
    by_cases hin : s.nextIdx ∈ P
    · have hlook : lookupA s.nextIdx s.buffer = some (f s.nextIdx) := by
        rw [h5 s.nextIdx, if_pos ⟨hin, le_refl _⟩]
      have htot : s.nextIdx ≤ total := (h7 s.nextIdx hin).2
      have hcond : (lookupA s.nextIdx s.buffer).isSome ∧ s.nextIdx ≤ total := by
        rw [hlook]
        exact ⟨rfl, htot⟩
      rw [drainBuffer_eq, dif_pos hcond]
      have hget : (lookupA s.nextIdx s.buffer).get hcond.1 = f s.nextIdx := by
        simp only [hlook, Option.get_some]
      rw [hget]
      have hpre2 : AsmPre total f P
          (⟨delA s.nextIdx s.buffer, s.nextIdx + 1, s.sent ++ [f s.nextIdx]⟩ :
            AsmState α) := by
        obtain ⟨n0, hn0⟩ : ∃ n0, s.nextIdx = n0 + 1 := ⟨s.nextIdx - 1, by omega⟩
        refine ⟨?_, ?_, ?_, ?_, ?_, h7⟩
        · show 1 ≤ s.nextIdx + 1
          omega
        · show ∀ j, 1 ≤ j → j < s.nextIdx + 1 → j ∈ P
          intro j hj1 hj2
          rcases Nat.lt_or_ge j s.nextIdx with hlt | hge2
          · exact h2 j hj1 hlt
          · have : j = s.nextIdx := by omega
            subst this
            exact hin
        · show s.sent ++ [f s.nextIdx] = (List.range' 1 (s.nextIdx + 1 - 1)).map f
          rw [h4, hn0, show n0 + 1 + 1 - 1 = n0 + 1 from rfl,
            List.range'_concat 1 n0]
          simp [Nat.add_comm]
        · show ∀ j, lookupA j (delA s.nextIdx s.buffer)
            = if j ∈ P ∧ s.nextIdx + 1 ≤ j then some (f j) else none
          intro j
          by_cases hj : j = s.nextIdx
          · subst hj
            rw [lookupA_delA_self _ _ h6, if_neg (fun hc => absurd hc.2 (by omega))]
          · rw [lookupA_delA_ne _ _ _ hj, h5 j]
            rcases Nat.lt_or_ge j (s.nextIdx + 1) with hlt | hge2
            · rw [if_neg (fun hc => absurd hc.2 (by omega)),
                if_neg (fun hc => absurd hc.2 (by omega))]
            · by_cases hjP : j ∈ P
              · rw [if_pos ⟨hjP, by omega⟩, if_pos ⟨hjP, hge2⟩]
              · rw [if_neg (fun hc => hjP hc.1), if_neg (fun hc => hjP hc.1)]
        · show ((delA s.nextIdx s.buffer).map Prod.fst).Nodup
          exact (delA_map_fst_sublist s.nextIdx s.buffer).nodup h6
      exact ih _ (by show total + 1 - (s.nextIdx + 1) ≤ k; omega) hpre2
    · have hlook : lookupA s.nextIdx s.buffer = none := by
        rw [h5 s.nextIdx, if_neg (fun hc => hin hc.1)]
      rw [drainBuffer_eq, dif_neg (by rw [hlook]; rintro ⟨hsome, -⟩; simp at hsome)]
      exact ⟨h1, h2, hin, h4, h5, h6, h7⟩

theorem completeBatch_inv {α : Type} (total : Nat) (f : Nat → α) (P : List Nat)
    (s : AsmState α) (i : Nat) (hinv : AsmInv total f P s) (hiP : i ∉ P)
    (hi1 : 1 ≤ i) (hitot : i ≤ total) :
    AsmInv total f (P ++ [i]) (completeBatch total i (f i) s) := by
  obtain ⟨h1, h2, h3, h4, h5, h6, h7⟩ := hinv
  have hge : s.nextIdx ≤ i := by
    by_contra hlt
    exact hiP (h2 i hi1 (by omega))
  have hlooki : lookupA i s.buffer = none := by
    rw [h5 i, if_neg (fun hc => hiP hc.1)]
  show AsmInv total f (P ++ [i])
    (drainBuffer total (⟨setA i (f i) s.buffer, s.nextIdx, s.sent⟩ : AsmState α))
  refine drainBuffer_inv total f (P ++ [i]) (total + 1 - s.nextIdx) _ ?_ ?_
  · show total + 1 - s.nextIdx ≤ total + 1 - s.nextIdx
    exact Nat.le_refl _
  · refine ⟨h1, ?_, h4, ?_, ?_, ?_⟩
    · show ∀ j, 1 ≤ j → j < s.nextIdx → j ∈ P ++ [i]
      intro j hj1 hj2
      exact List.mem_append_left _ (h2 j hj1 hj2)
    · show ∀ j, lookupA j (setA i (f i) s.buffer)
        = if j ∈ P ++ [i] ∧ s.nextIdx ≤ j then some (f j) else none
      intro j
      by_cases hj : j = i
      · subst hj
        rw [lookupA_setA_self,
          if_pos ⟨List.mem_append_right _ (List.mem_singleton_self _), hge⟩]
      · rw [lookupA_setA_ne _ _ _ _ hj, h5 j]
        have hmemiff : j ∈ P ↔ j ∈ P ++ [i] := by
          rw [List.mem_append, List.mem_singleton]
          exact ⟨Or.inl, fun hc => hc.elim id (fun he => absurd he hj)⟩
        by_cases hjP : j ∈ P
        · by_cases hjn : s.nextIdx ≤ j
          · rw [if_pos ⟨hjP, hjn⟩, if_pos ⟨hmemiff.mp hjP, hjn⟩]
          · rw [if_neg (fun hc => hjn hc.2), if_neg (fun hc => hjn hc.2)]
        · rw [if_neg (fun hc => hjP hc.1), if_neg (fun hc => hjP (hmemiff.mpr hc.1))]
    · show ((setA i (f i) s.buffer).map Prod.fst).Nodup
      rw [setA_map_fst_of_none _ _ _ hlooki, List.nodup_append]
      refine ⟨h6, List.nodup_singleton _, ?_⟩
      intro x hx hx2
      rw [List.mem_singleton] at hx2
      subst hx2
      exact (lookupA_eq_none_iff _ _).mp hlooki hx
    · intro j hj
      rcases List.mem_append.mp hj with hP | hi2
      · exact h7 j hP
      · rw [List.mem_singleton] at hi2
        subst hi2
        exact ⟨hi1, hitot⟩

theorem initAsm_inv {α : Type} (total : Nat) (f : Nat → α) :
    AsmInv total f [] (⟨[], 1, []⟩ : AsmState α) := by
  refine ⟨le_refl 1, ?_, by simp, by simp [List.range'], ?_, by simp, by simp⟩
  · show ∀ j, 1 ≤ j → j < 1 → j ∈ ([] : List Nat)
    intro j hj1 hj2
    exact absurd hj1 (by omega)
  · intro j
    simp [lookupA]

theorem runBatches_inv_aux {α : Type} (total : Nat) (f : Nat → α) :
    ∀ (rest P : List Nat) (s : AsmState α), AsmInv total f P s →
      (∀ j ∈ rest, 1 ≤ j ∧ j ≤ total) → (∀ j ∈ rest, j ∉ P) → rest.Nodup →
      AsmInv total f (P ++ rest)
        (rest.foldl (fun t i => completeBatch total i (f i) t) s) := by
  intro rest
  induction rest with
  | nil =>
    intro P s hinv _ _ _
    simpa using hinv
  | cons i rest2 ih =>
    intro P s hinv hrange hfresh hnd
    have hstep := completeBatch_inv total f P s i hinv (hfresh i (by simp))
      (hrange i (by simp)).1 (hrange i (by simp)).2
    have hfresh2 : ∀ j ∈ rest2, j ∉ P ++ [i] := by
      intro j hj hmem
      rcases List.mem_append.mp hmem with hP | hi2
      · exact hfresh j (by simp [hj]) hP
      · rw [List.mem_singleton] at hi2
        subst hi2
        exact (List.nodup_cons.mp hnd).1 hj
    have hmain := ih (P ++ [i]) _ hstep (fun j hj => hrange j (by simp [hj])) hfresh2
      (List.nodup_cons.mp hnd).2
    rw [List.foldl_cons]
    rw [List.append_assoc, List.singleton_append] at hmain
    exact hmain

theorem runBatches_inv {α : Type} (total : Nat) (f : Nat → α) (order : List Nat)
    (hrange : ∀ j ∈ order, 1 ≤ j ∧ j ≤ total) (hnd : order.Nodup) :
    AsmInv total f order (runBatches total f order) := by
  have := runBatches_inv_aux total f order [] ⟨[], 1, []⟩ (initAsm_inv total f)
    hrange (by simp) hnd
  simpa [runBatches] using this

theorem runBatches_perm_sent {α : Type} (k : Nat) (f : Nat → α) (order : List Nat)
    (hperm : order.Perm (List.range' 1 k)) :
    (runBatches k f order).sent = (List.range' 1 k).map f
    ∧ (runBatches k f order).nextIdx = k + 1 := by
  have hmem : ∀ j, j ∈ order ↔ 1 ≤ j ∧ j < 1 + k := by
    intro j
    rw [hperm.mem_iff, List.mem_range'_1]
  have hrange : ∀ j ∈ order, 1 ≤ j ∧ j ≤ k := by
    intro j hj
    have := (hmem j).mp hj
    omega
  have hnd : order.Nodup := hperm.nodup_iff.mpr (List.nodup_range' 1 k)
  obtain ⟨h1, h2, h3, h4, h5, h6, h7⟩ := runBatches_inv k f order hrange hnd
  have hnext : (runBatches k f order).nextIdx = k + 1 := by
    rcases Nat.lt_or_ge (runBatches k f order).nextIdx (k + 1) with hlt | hge
    · exact absurd ((hmem _).mpr ⟨h1, by omega⟩) h3
    · rcases Nat.eq_or_lt_of_le hge with heq | hgt
      · exact heq.symm
      · have hk1 : k + 1 ∈ order := h2 (k + 1) (by omega) hgt
        have := (hmem _).mp hk1
        omega
  refine ⟨?_, hnext⟩
  rw [h4, hnext]
  simp

theorem runBatches_sent_inv {α : Type} (k : Nat) (f : Nat → α) (order : List Nat)
    (hperm : order.Perm (List.range' 1 k)) (p q : List Nat) (hpq : order = p ++ q) :
    (runBatches k f p).sent
      = (List.range' 1 ((runBatches k f p).nextIdx - 1)).map f := by
  have hrange : ∀ j ∈ p, 1 ≤ j ∧ j ≤ k := by
    intro j hj
    have hjo : j ∈ order := by
      rw [hpq]
      exact List.mem_append_left _ hj
    have := List.mem_range'_1.mp (hperm.mem_iff.mp hjo)
    omega
  have hnd : p.Nodup := by
    have hond : order.Nodup := hperm.nodup_iff.mpr (List.nodup_range' 1 k)
    rw [hpq, List.nodup_append] at hond
    exact hond.1
  exact (runBatches_inv k f p hrange hnd).2.2.2.1

/-- C3: for every channel with `k` batches whose summaries are `f 1 .. f k`,
and every serialization `order` of the batch-completion events (any
interleaving: `order` is an arbitrary permutation of `1..k`), the summaries
forwarded to the send callback are exactly `f 1, ..., f k` in batch-index
order, the next-expected counter ends at `k + 1`, and at every intermediate
instant (every prefix `p` of `order`) the forwarded sequence is exactly
batches `1 .. nextIdx - 1` — so batch `i` is forwarded only after batches
`1 .. i-1`, with no gaps, duplicates or reordering. -/
theorem C3_ordered_delivery {α : Type} (k : Nat) (f : Nat → α) (order : List Nat)
    (hperm : order.Perm (List.range' 1 k)) :
    (runBatches k f order).sent = (List.range' 1 k).map f
    ∧ (runBatches k f order).nextIdx = k + 1
    ∧ (∀ p q, order = p ++ q →
        (runBatches k f p).sent
          = (List.range' 1 ((runBatches k f p).nextIdx - 1)).map f) := by
  obtain ⟨hs, hn⟩ := runBatches_perm_sent k f order hperm
  exact ⟨hs, hn, fun p q hpq => runBatches_sent_inv k f order hperm p q hpq⟩

/-- C3 witness: three batches completing in the order 2, 3, 1. -/
theorem C3_ordered_delivery_witness :
    (runBatches 3 (fun i => i) [2, 3, 1]).sent = (List.range' 1 3).map (fun i => i)
    ∧ (runBatches 3 (fun i => i) [2, 3, 1]).nextIdx = 3 + 1
    ∧ (∀ p q, [2, 3, 1] = p ++ q →
        (runBatches 3 (fun i => i) p).sent
          = (List.range' 1 ((runBatches 3 (fun i => i) p).nextIdx - 1)).map
              (fun i => i)) :=
  C3_ordered_delivery 3 (fun i => i) [2, 3, 1] (by decide)

/-- C7: when the summarization collaborator fails for batch `i` of a channel
(`outcome i = error e`), the worker yields the placeholder string naming that
batch index and channel instead of raising; the placeholder enters the
channel's buffer at index `i` and advances the next-expected counter exactly
like a success, and every other batch is still delivered: for any completion
interleaving the callback receives, at position `j`, batch `j`'s result —
placeholder or summary — for all `j = 1..k`. -/
theorem C7_failure_isolation (k : Nat) (channel : List Char)
    (outcome : Nat → Except (List Char) (List Char)) (order : List Nat)
    (hperm : order.Perm (List.range' 1 k)) :
    (runBatches k (fun i => summarize_batch_result (outcome i) i channel) order).sent
      = (List.range' 1 k).map (fun i => summarize_batch_result (outcome i) i channel)
    ∧ (runBatches k (fun i => summarize_batch_result (outcome i) i channel) order).nextIdx
      = k + 1
    ∧ (∀ i e, outcome i = Except.error e →
        summarize_batch_result (outcome i) i channel = batch_error_message i channel e
        ∧ (∃ a b, batch_error_message i channel e = a ++ (Nat.repr i).data ++ b)
        ∧ (∃ a b, batch_error_message i channel e = a ++ channel ++ b)) := by
  obtain ⟨hs, hn⟩ := runBatches_perm_sent k
    (fun i => summarize_batch_result (outcome i) i channel) order hperm
  refine ⟨hs, hn, ?_⟩
  intro i e he
  refine ⟨by simp [summarize_batch_result, he], ?_, ?_⟩
  · exact ⟨"❌ Ошибка при создании саммари батча ".data,
      " для канала @".data ++ channel ++ ": ".data ++ e,
      by simp [batch_error_message, List.append_assoc]⟩
  · exact ⟨"❌ Ошибка при создании саммари батча ".data ++ (Nat.repr i).data
        ++ " для канала @".data,
      ": ".data ++ e,
      by simp [batch_error_message, List.append_assoc]⟩

/-- C7 witness: two batches of channel "news", batch 1 failing with "boom",
completing in the order 2, 1. -/
theorem C7_failure_isolation_witness :
    (runBatches 2 (fun i => summarize_batch_result
        ((fun j => if j = 1 then Except.error "boom".data else Except.ok "S2".data) i)
        i "news".data) [2, 1]).sent
      = (List.range' 1 2).map (fun i => summarize_batch_result
          ((fun j => if j = 1 then Except.error "boom".data else Except.ok "S2".data) i)
          i "news".data)
    ∧ (runBatches 2 (fun i => summarize_batch_result
        ((fun j => if j = 1 then Except.error "boom".data else Except.ok "S2".data) i)
        i "news".data) [2, 1]).nextIdx = 2 + 1
    ∧ (∀ i e, (fun j => if j = 1 then Except.error "boom".data
          else Except.ok "S2".data) i = Except.error e →
        summarize_batch_result
            ((fun j => if j = 1 then Except.error "boom".data
              else Except.ok "S2".data) i) i "news".data
          = batch_error_message i "news".data e
        ∧ (∃ a b, batch_error_message i "news".data e = a ++ (Nat.repr i).data ++ b)
        ∧ (∃ a b, batch_error_message i "news".data e = a ++ "news".data ++ b)) :=
  C7_failure_isolation 2 "news".data
    (fun j => if j = 1 then Except.error "boom".data else Except.ok "S2".data)
    [2, 1] (by decide)

/-- C2 witness: after a first call whose scan found one post, the second
same-day call returns the cached value without scanning. -/
theorem C2_same_day_cache_witness :
    get_daily_posts "2026-10-12".data []
        (get_daily_posts "2026-10-12".data [⟨"c".data, "t".data, "x".data⟩]
          ⟨[], none, []⟩).2.1
      = ((get_daily_posts "2026-10-12".data [⟨"c".data, "t".data, "x".data⟩]
            ⟨[], none, []⟩).1,
         (get_daily_posts "2026-10-12".data [⟨"c".data, "t".data, "x".data⟩]
            ⟨[], none, []⟩).2.1, false) :=
  (C2_same_day_cache ⟨[], none, []⟩ "2026-10-12".data
    [⟨"c".data, "t".data, "x".data⟩] []).1 (by decide)
